import Mathlib

/-!
Verification of `src/blast_process.py` (sequence chunking, BLAST report
extraction, result writing, and the submit/poll/fetch pipeline).

Strings are modelled as `List Char`; Python floats are modelled as exact
rationals; Python exceptions (e.g. `ValueError` from `int(...)`) are
modelled by `Option`, with `none` standing for an uncaught exception.
-/

namespace BlastProcess

/-! ## Python string primitives -/

/-- Whitespace characters removed by Python's `str.strip()` (ASCII subset). -/
def pyIsSpace (c : Char) : Bool :=
  c = ' ' || c = '\t' || c = '\n' || c = '\r' || c = '\x0b' || c = '\x0c'

/-- Python `str.lstrip()`. -/
def lstrip (s : List Char) : List Char := s.dropWhile pyIsSpace

/-- Python `str.strip()`: removes leading and trailing whitespace. -/
def strip (s : List Char) : List Char := ((lstrip s).reverse.dropWhile pyIsSpace).reverse

/-- `l.split(sep)` for a single separator character. -/
def splitOnChar (sep : Char) : List Char → List (List Char)
  | [] => [[]]
  | c :: rest =>
    if c = sep then [] :: splitOnChar sep rest
    else
      match splitOnChar sep rest with
      | [] => [[c]]
      | p :: ps => (c :: p) :: ps

/-- `needle` occurs at the start of the second list (Python `str.startswith`). -/
def beginsWith : List Char → List Char → Bool
  | [], _ => true
  | _ :: _, [] => false
  | a :: as, b :: bs => a = b && beginsWith as bs

/-- Python `needle in hay` substring containment. -/
def containsSub (needle : List Char) : List Char → Bool
  | [] => needle.isEmpty
  | c :: rest => beginsWith needle (c :: rest) || containsSub needle rest

/-- One step of Python `str.splitlines` (handles `\n`, `\r`, `\r\n`). -/
def splitlinesGo (acc : List Char) : List Char → List (List Char)
  | [] => [acc.reverse]
  | '\r' :: '\n' :: rest => acc.reverse :: splitlinesGo [] rest
  | '\n' :: rest => acc.reverse :: splitlinesGo [] rest
  | '\r' :: rest => acc.reverse :: splitlinesGo [] rest
  | c :: rest => splitlinesGo (c :: acc) rest

/-- Python `str.splitlines`: no trailing empty line, empty string gives `[]`. -/
def pySplitlines (s : List Char) : List (List Char) :=
  match s with
  | [] => []
  | s =>
    match (splitlinesGo [] s).reverse with
    | [] => []
    | last :: front => if last.isEmpty then front.reverse else (last :: front).reverse

/-! ## `split_sequence` (lines 93-97) -/

/-- Fuel-based worker for `split_sequence` (structural recursion on the
fuel so that the kernel can evaluate it; the fuel is an upper bound on the
list length, and each step removes at least one element for any
`chunk_size`). -/
def splitSeqGo (chunk_size : Nat) : Nat → List Char → List (List Char)
  | _, [] => []
  | 0, _ :: _ => []
  | fuel + 1, c :: rest =>
    ((c :: rest).take chunk_size) :: splitSeqGo chunk_size fuel (rest.drop (chunk_size - 1))

/-- `split_sequence`: `[sequence[i:i + chunk_size] for i in range(0, len(sequence), chunk_size)]`.
For positive `chunk_size` each step keeps `sequence.take chunk_size` and
recurses on `sequence.drop chunk_size` (`rest.drop (chunk_size - 1)` below);
for `chunk_size = 0` Python's `range` would raise `ValueError`. -/
def split_sequence (chunk_size : Nat) (sequence : List Char) : List (List Char) :=
  splitSeqGo chunk_size sequence.length sequence

theorem splitSeqGo_congr (C : Nat) : ∀ (f1 f2 : Nat) (s : List Char),
    s.length ≤ f1 → s.length ≤ f2 → splitSeqGo C f1 s = splitSeqGo C f2 s := by
  intro f1
  induction f1 with
  | zero =>
    intro f2 s h1 h2
    cases s with
    | nil => cases f2 <;> rfl
    | cons c rest => simp at h1
  | succ a ih =>
    intro f2 s h1 h2
    cases s with
    | nil => cases f2 <;> rfl
    | cons c rest =>
      cases f2 with
      | zero => simp at h2
      | succ b =>
        simp only [splitSeqGo, List.cons.injEq, true_and]
        apply ih
        · simp only [List.length_drop]
          simp only [List.length_cons] at h1
          omega
        · simp only [List.length_drop]
          simp only [List.length_cons] at h2
          omega

theorem split_sequence_nil (C : Nat) : split_sequence C [] = [] := rfl

theorem split_sequence_cons (C : Nat) (hC : 0 < C) (s : List Char) (hs : s ≠ []) :
    split_sequence C s = s.take C :: split_sequence C (s.drop C) := by
  cases s with
  | nil => exact absurd rfl hs
  | cons c rest =>
    cases C with
    | zero => omega
    | succ k =>
      show splitSeqGo (k + 1) (rest.length + 1) (c :: rest)
          = (c :: rest).take (k + 1) :: split_sequence (k + 1) ((c :: rest).drop (k + 1))
      rw [splitSeqGo, List.drop_succ_cons, split_sequence]
      simp only [Nat.add_sub_cancel, List.cons.injEq, true_and]
      apply splitSeqGo_congr
      · simp only [List.length_drop]
        omega
      · exact le_rfl

theorem split_sequence_eq_nil_iff (C : Nat) (s : List Char) :
    split_sequence C s = [] ↔ s = [] := by
  cases s with
  | nil => simp [split_sequence_nil]
  | cons c rest => simp [split_sequence, splitSeqGo]

theorem split_sequence_flatten (C : Nat) (hC : 0 < C) (s : List Char) :
    (split_sequence C s).flatten = s := by
  generalize hn : s.length = n
  induction n using Nat.strong_induction_on generalizing s with
  | _ n ih =>
    cases s with
    | nil => simp [split_sequence_nil]
    | cons c rest =>
      rw [split_sequence_cons C hC _ (by simp)]
      have hlt : ((c :: rest).drop C).length < n := by
        simp only [List.length_drop, List.length_cons] at *
        omega
      rw [List.flatten_cons, ih _ hlt _ rfl, List.take_append_drop]

theorem getLast?_cons_eq {α : Type} (a : α) (t : List α) :
    (a :: t).getLast? = some (match t.getLast? with | none => a | some b => b) := by
  induction t generalizing a with
  | nil => rfl
  | cons b t ih =>
    rw [List.getLast?_cons_cons, ih b]

theorem split_sequence_dropLast (C : Nat) (hC : 0 < C) (s : List Char) :
    ∀ x ∈ (split_sequence C s).dropLast, x.length = C := by
  generalize hn : s.length = n
  induction n using Nat.strong_induction_on generalizing s with
  | _ n ih =>
    cases s with
    | nil => simp [split_sequence_nil]
    | cons c rest =>
      rw [split_sequence_cons C hC _ (by simp)]
      by_cases hdrop : (c :: rest).drop C = []
      · rw [hdrop, split_sequence_nil]
        simp
      · have hlen : C < (c :: rest).length := by
          by_contra hle
          exact hdrop (List.drop_eq_nil_of_le (by omega))
        have htail : split_sequence C ((c :: rest).drop C) ≠ [] := by
          rw [Ne, split_sequence_eq_nil_iff]
          exact hdrop
        obtain ⟨y, ys, hys⟩ := List.exists_cons_of_ne_nil htail
        rw [hys, List.dropLast_cons₂]
        intro x hx
        rcases List.mem_cons.mp hx with hx1 | hx2
        · rw [hx1, List.length_take]
          omega
        · have hlt : ((c :: rest).drop C).length < n := by
            simp only [List.length_drop, List.length_cons] at *
            omega
          exact ih _ hlt _ rfl x (by rw [hys]; exact hx2)

theorem split_sequence_getLast_length (C : Nat) (hC : 0 < C) (s : List Char) :
    ∀ l, (split_sequence C s).getLast? = some l →
      l.length = if s.length % C = 0 then C else s.length % C := by
  generalize hn : s.length = n
  induction n using Nat.strong_induction_on generalizing s with
  | _ n ih =>
    cases s with
    | nil => simp [split_sequence_nil]
    | cons c rest =>
      intro l hl
      rw [split_sequence_cons C hC _ (by simp)] at hl
      by_cases hdrop : (c :: rest).drop C = []
      · rw [hdrop, split_sequence_nil] at hl
        simp only [List.getLast?_singleton, Option.some.injEq] at hl
        have hle : (c :: rest).length ≤ C := by
          have h0 := congrArg List.length hdrop
          simp only [List.length_drop, List.length_nil] at h0
          omega
        subst hn
        rcases Nat.lt_or_ge (c :: rest).length C with hlt | hge
        · rw [Nat.mod_eq_of_lt hlt]
          have hpos : 0 < (c :: rest).length := by simp
          rw [if_neg (by omega), ← hl, List.length_take]
          omega
        · have heq : (c :: rest).length = C := by omega
          rw [heq, Nat.mod_self, if_pos rfl, ← hl, List.length_take, heq]
          omega
      · have hlen : C < (c :: rest).length := by
          by_contra hle
          exact hdrop (List.drop_eq_nil_of_le (by omega))
        have htail : split_sequence C ((c :: rest).drop C) ≠ [] := by
          rw [Ne, split_sequence_eq_nil_iff]
          exact hdrop
        obtain ⟨y, ys, hys⟩ := List.exists_cons_of_ne_nil htail
        rw [hys, List.getLast?_cons_cons, ← hys] at hl
        have hlt : ((c :: rest).drop C).length < n := by
          simp only [List.length_drop, List.length_cons] at *
          omega
        have := ih _ hlt _ rfl l hl
        rw [List.length_drop] at this
        subst hn
        rw [Nat.mod_eq_sub_mod (le_of_lt hlen)]
        exact this

theorem split_sequence_get (C : Nat) (hC : 0 < C) :
    ∀ (i : Nat) (s : List Char) (h : i < (split_sequence C s).length),
      (split_sequence C s).get ⟨i, h⟩ = (s.drop (C * i)).take C := by
  intro i
  induction i with
  | zero =>
    intro s h
    cases s with
    | nil => simp [split_sequence_nil] at h
    | cons c rest =>
      have hcons := split_sequence_cons C hC (c :: rest) (by simp)
      revert h
      rw [hcons]
      intro h
      simp
  | succ i ih =>
    intro s h
    cases s with
    | nil => simp [split_sequence_nil] at h
    | cons c rest =>
      have hcons := split_sequence_cons C hC (c :: rest) (by simp)
      revert h
      rw [hcons]
      intro h
      rw [List.get_cons_succ, ih ((c :: rest).drop C) _, List.drop_drop]
      have : C + C * i = C * (i + 1) := by ring
      rw [this]

/-- C1: for positive `chunk_size` the chunks of `split_sequence` concatenate
back to the input, every chunk but the last has length exactly `chunk_size`,
the last chunk has length `len S mod C` (or `C` when `C` divides `len S`),
and chunk `i` is exactly the slice of `S` starting at `C * i`, so consecutive
chunks are adjacent with no gap or overlap. -/
theorem split_sequence_spec (S : List Char) (C : Nat) (hC : 0 < C) :
    (split_sequence C S).flatten = S
  ∧ (∀ chunk ∈ (split_sequence C S).dropLast, chunk.length = C)
  ∧ (∀ l, (split_sequence C S).getLast? = some l →
      l.length = if S.length % C = 0 then C else S.length % C)
  ∧ (∀ i (h : i < (split_sequence C S).length),
      (split_sequence C S).get ⟨i, h⟩ = (S.drop (C * i)).take C) :=
  ⟨split_sequence_flatten C hC S, split_sequence_dropLast C hC S,
   split_sequence_getLast_length C hC S, fun i h => split_sequence_get C hC i S h⟩

/-- Witness for C1 at `S = "abcde"`, `C = 2`. -/
theorem split_sequence_spec_witness :
    0 < 2
  ∧ ((split_sequence 2 ['a','b','c','d','e']).flatten = ['a','b','c','d','e']
     ∧ (∀ chunk ∈ (split_sequence 2 ['a','b','c','d','e']).dropLast, chunk.length = 2)
     ∧ (∀ l, (split_sequence 2 ['a','b','c','d','e']).getLast? = some l →
         l.length = if (['a','b','c','d','e'] : List Char).length % 2 = 0 then 2
                    else (['a','b','c','d','e'] : List Char).length % 2)
     ∧ (∀ i (h : i < (split_sequence 2 ['a','b','c','d','e']).length),
         (split_sequence 2 ['a','b','c','d','e']).get ⟨i, h⟩
           = ((['a','b','c','d','e'] : List Char).drop (2 * i)).take 2)) :=
  ⟨by decide, split_sequence_spec ['a','b','c','d','e'] 2 (by decide)⟩

/-! ## Numeric parsing (Python `int(...)` / `float(...)` on stripped field text) -/

/-- Value of a digit string (assumes all digits). -/
def digitsVal (s : List Char) : Nat := s.foldl (fun a c => a * 10 + (c.toNat - 48)) 0

/-- Unsigned decimal integer; `none` models `ValueError`. -/
def parsePyIntU (s : List Char) : Option Nat :=
  if s ≠ [] ∧ s.all Char.isDigit then some (digitsVal s) else none

/-- Python `int(text)` (sign and digits; underscores/whitespace variants not used here). -/
def parsePyInt (s : List Char) : Option Int :=
  match s with
  | '+' :: rest => (parsePyIntU rest).map Int.ofNat
  | '-' :: rest => (parsePyIntU rest).map (fun n => -(n : Int))
  | _ => (parsePyIntU s).map Int.ofNat

/-- Unsigned decimal float: digits with an optional fractional part. -/
def parseUnsignedFloat (s : List Char) : Option ℚ :=
  match splitOnChar '.' s with
  | [ip] => if ip ≠ [] ∧ ip.all Char.isDigit then some (digitsVal ip : ℚ) else none
  | [ip, fp] =>
    if (ip ≠ [] ∨ fp ≠ []) ∧ ip.all Char.isDigit ∧ fp.all Char.isDigit then
      some ((digitsVal ip : ℚ) + (digitsVal fp : ℚ) / (10 : ℚ) ^ fp.length)
    else none
  | _ => none

/-- Python `float(text)`; floats are modelled as exact rationals. -/
def parsePyFloat (s : List Char) : Option ℚ :=
  match s with
  | '+' :: rest => parseUnsignedFloat rest
  | '-' :: rest => (parseUnsignedFloat rest).map Neg.neg
  | _ => parseUnsignedFloat s

/-! ## Report extraction (lines 60-90 and 124-161) -/

def iterMarker : List Char := "<BlastOutput_iterations>".toList

def identityMarker : List Char := "<Hsp_identity>".toList

def alignLenMarker : List Char := "<Hsp_align-len>".toList

def bitScoreMarker : List Char := "<Hsp_bit-score>".toList

/-- `line.split(">")[1].split("<")[0].strip()` — the tag's enclosed text. -/
def fieldValue (line : List Char) : List Char :=
  strip (((splitOnChar '<' (((splitOnChar '>' line).get? 1).getD [])).headD []))

/-- Local state of `parse_blast_result`. `identity` starts unassigned in
Python (referencing it raises `UnboundLocalError`), modelled as `none`. -/
structure SimpleState where
  matchList : List Int
  percent_identity : ℚ
  bit_score : ℚ
  align_len : Int
  identity : Option Int
deriving DecidableEq

def simpleInit : SimpleState :=
  { matchList := [], percent_identity := 0, bit_score := 0, align_len := 0, identity := none }

/-- `if "<Hsp_identity>" in line: identity = int(...)`. -/
def applyIdentityS (st : SimpleState) (line : List Char) : Option SimpleState :=
  if containsSub identityMarker line then
    match parsePyInt (fieldValue line) with
    | some v => some { st with identity := some v }
    | none => none
  else some st

/-- `if "<Hsp_align-len>" in line: align_len = int(...)`. -/
def applyAlignS (st : SimpleState) (line : List Char) : Option SimpleState :=
  if containsSub alignLenMarker line then
    match parsePyInt (fieldValue line) with
    | some v => some { st with align_len := v }
    | none => none
  else some st

/-- `if percent_identity > 99 and bit_score > 54998: matches.append(1)`. -/
def appendMatchS (st : SimpleState) : SimpleState :=
  if 99 < st.percent_identity ∧ 54998 < st.bit_score then
    { st with matchList := st.matchList ++ [1] }
  else st

/-- `if "<Hsp_bit-score>" in line: bit_score = float(...); ...`. -/
def applyBitS (st : SimpleState) (line : List Char) : Option SimpleState :=
  if containsSub bitScoreMarker line then
    match parsePyFloat (fieldValue line) with
    | none => none
    | some v =>
      let st1 := { st with bit_score := v }
      if 0 < st1.align_len then
        match st1.identity with
        | none => none
        | some idv =>
          some (appendMatchS { st1 with
            percent_identity := (idv : ℚ) / (st1.align_len : ℚ) * 100 })
      else some (appendMatchS st1)
  else some st

/-- One iteration of the `for line in xml_result.splitlines()` loop of
`parse_blast_result` (three independent `if`s on the stripped line). -/
def simpleStep (st : SimpleState) (rawLine : List Char) : Option SimpleState :=
  let line := strip rawLine
  match applyIdentityS st line with
  | none => none
  | some st1 =>
    match applyAlignS st1 line with
    | none => none
    | some st2 => applyBitS st2 line

/-- Sequential loop over lines; `none` models an uncaught exception. -/
def foldSteps {σ : Type} (step : σ → List Char → Option σ) : σ → List (List Char) → Option σ
  | st, [] => some st
  | st, l :: ls =>
    match step st l with
    | none => none
    | some st1 => foldSteps step st1 ls

/-- `parse_blast_result` (lines 60-90). -/
def parse_blast_result (xml_result : List Char) : Option Int :=
  if containsSub iterMarker xml_result then
    match foldSteps simpleStep simpleInit (pySplitlines xml_result) with
    | none => none
    | some st => some (if st.matchList.isEmpty then -1 else 1)
  else some (-1)

/-- Local state of `parse_blast_result_detailed`: `align_len` starts as
`None`, `identity` as `0`. -/
structure DetailedState where
  matchList : List Int
  percent_identity : ℚ
  bit_score : ℚ
  align_len : Option Int
  identity : Int
deriving DecidableEq

def detailedInit : DetailedState :=
  { matchList := [], percent_identity := 0, bit_score := 0, align_len := none, identity := 0 }

def appendMatchD (st : DetailedState) : DetailedState :=
  if 99 < st.percent_identity ∧ 54998 < st.bit_score then
    { st with matchList := st.matchList ++ [1] }
  else st

/-- The `elif "<Hsp_bit-score>" in line:` branch; the guard is Python's
`if align_len and align_len > 0` (truthiness plus positivity). -/
def applyBitD (st : DetailedState) (line : List Char) : Option DetailedState :=
  match parsePyFloat (fieldValue line) with
  | none => none
  | some v =>
    let st1 := { st with bit_score := v }
    let st2 :=
      match st1.align_len with
      | some a =>
        if a ≠ 0 ∧ 0 < a then
          { st1 with percent_identity := (st1.identity : ℚ) / (a : ℚ) * 100 }
        else st1
      | none => st1
    some (appendMatchD st2)

/-- One iteration of the loop of `parse_blast_result_detailed`
(an `if`/`elif`/`elif` chain on the stripped line). -/
def detailedStep (st : DetailedState) (rawLine : List Char) : Option DetailedState :=
  let line := strip rawLine
  if containsSub identityMarker line then
    match parsePyInt (fieldValue line) with
    | some v => some { st with identity := v }
    | none => none
  else if containsSub alignLenMarker line then
    match parsePyInt (fieldValue line) with
    | some v => some { st with align_len := some v }
    | none => none
  else if containsSub bitScoreMarker line then
    applyBitD st line
  else some st

/-- `parse_blast_result_detailed` (lines 124-161). -/
def parse_blast_result_detailed (xml_result : List Char) : Option (Int × ℚ × ℚ) :=
  if containsSub iterMarker xml_result then
    match foldSteps detailedStep detailedInit (pySplitlines xml_result) with
    | none => none
    | some st =>
      some ((if st.matchList.isEmpty then -1 else 1), st.percent_identity, st.bit_score)
  else some (-1, 0, 0)

/-! ## Step-evaluation lemmas (used to run the parsers on concrete reports;
`Rat` arithmetic is kept symbolic because its operations are irreducible) -/

theorem foldSteps_nil {σ : Type} (step : σ → List Char → Option σ) (st : σ) :
    foldSteps step st [] = some st := rfl

theorem foldSteps_cons_some {σ : Type} (step : σ → List Char → Option σ)
    (st st1 : σ) (l : List Char) (ls : List (List Char))
    (h : step st l = some st1) :
    foldSteps step st (l :: ls) = foldSteps step st1 ls := by
  simp [foldSteps, h]

theorem appendMatchS_pos (st : SimpleState)
    (h : 99 < st.percent_identity ∧ 54998 < st.bit_score) :
    appendMatchS st = { st with matchList := st.matchList ++ [1] } := by
  simp [appendMatchS, h]

theorem appendMatchS_neg (st : SimpleState)
    (h : ¬(99 < st.percent_identity ∧ 54998 < st.bit_score)) :
    appendMatchS st = st := by
  simp only [appendMatchS, if_neg h]

theorem appendMatchD_pos (st : DetailedState)
    (h : 99 < st.percent_identity ∧ 54998 < st.bit_score) :
    appendMatchD st = { st with matchList := st.matchList ++ [1] } := by
  simp [appendMatchD, h]

theorem appendMatchD_neg (st : DetailedState)
    (h : ¬(99 < st.percent_identity ∧ 54998 < st.bit_score)) :
    appendMatchD st = st := by
  simp only [appendMatchD, if_neg h]

theorem simpleStep_no_marker (st : SimpleState) (l : List Char)
    (hid : containsSub identityMarker (strip l) = false)
    (hal : containsSub alignLenMarker (strip l) = false)
    (hbit : containsSub bitScoreMarker (strip l) = false) :
    simpleStep st l = some st := by
  simp [simpleStep, applyIdentityS, applyAlignS, applyBitS, hid, hal, hbit]

theorem simpleStep_id_only (st : SimpleState) (l : List Char) (v : Int)
    (hid : containsSub identityMarker (strip l) = true)
    (hal : containsSub alignLenMarker (strip l) = false)
    (hbit : containsSub bitScoreMarker (strip l) = false)
    (hv : parsePyInt (fieldValue (strip l)) = some v) :
    simpleStep st l = some { st with identity := some v } := by
  simp [simpleStep, applyIdentityS, applyAlignS, applyBitS, hid, hal, hbit, hv]

theorem simpleStep_align_only (st : SimpleState) (l : List Char) (v : Int)
    (hid : containsSub identityMarker (strip l) = false)
    (hal : containsSub alignLenMarker (strip l) = true)
    (hbit : containsSub bitScoreMarker (strip l) = false)
    (hv : parsePyInt (fieldValue (strip l)) = some v) :
    simpleStep st l = some { st with align_len := v } := by
  simp [simpleStep, applyIdentityS, applyAlignS, applyBitS, hid, hal, hbit, hv]

theorem simpleStep_bit_only_pos (st : SimpleState) (l : List Char) (v : ℚ) (idv : Int)
    (hid : containsSub identityMarker (strip l) = false)
    (hal : containsSub alignLenMarker (strip l) = false)
    (hbit : containsSub bitScoreMarker (strip l) = true)
    (hv : parsePyFloat (fieldValue (strip l)) = some v)
    (hpos : 0 < st.align_len)
    (hident : st.identity = some idv) :
    simpleStep st l = some (appendMatchS
      { st with
          bit_score := v,
          percent_identity := (idv : ℚ) / (st.align_len : ℚ) * 100 }) := by
  simp [simpleStep, applyIdentityS, applyAlignS, applyBitS, hid, hal, hbit, hv, hpos, hident]

theorem simpleStep_id_bit (st : SimpleState) (l : List Char) (idv : Int) (v : ℚ)
    (hid : containsSub identityMarker (strip l) = true)
    (hal : containsSub alignLenMarker (strip l) = false)
    (hbit : containsSub bitScoreMarker (strip l) = true)
    (hiv : parsePyInt (fieldValue (strip l)) = some idv)
    (hv : parsePyFloat (fieldValue (strip l)) = some v)
    (hpos : 0 < st.align_len) :
    simpleStep st l = some (appendMatchS
      { st with
          identity := some idv,
          bit_score := v,
          percent_identity := (idv : ℚ) / (st.align_len : ℚ) * 100 }) := by
  simp [simpleStep, applyIdentityS, applyAlignS, applyBitS, hid, hal, hbit, hiv, hv, hpos]

theorem detailedStep_no_marker (st : DetailedState) (l : List Char)
    (hid : containsSub identityMarker (strip l) = false)
    (hal : containsSub alignLenMarker (strip l) = false)
    (hbit : containsSub bitScoreMarker (strip l) = false) :
    detailedStep st l = some st := by
  simp [detailedStep, hid, hal, hbit]

theorem detailedStep_id (st : DetailedState) (l : List Char) (v : Int)
    (hid : containsSub identityMarker (strip l) = true)
    (hv : parsePyInt (fieldValue (strip l)) = some v) :
    detailedStep st l = some { st with identity := v } := by
  simp [detailedStep, hid, hv]

theorem detailedStep_align (st : DetailedState) (l : List Char) (v : Int)
    (hid : containsSub identityMarker (strip l) = false)
    (hal : containsSub alignLenMarker (strip l) = true)
    (hv : parsePyInt (fieldValue (strip l)) = some v) :
    detailedStep st l = some { st with align_len := some v } := by
  simp [detailedStep, hid, hal, hv]

theorem detailedStep_bit_pos (st : DetailedState) (l : List Char) (v : ℚ) (a : Int)
    (hid : containsSub identityMarker (strip l) = false)
    (hal : containsSub alignLenMarker (strip l) = false)
    (hbit : containsSub bitScoreMarker (strip l) = true)
    (hv : parsePyFloat (fieldValue (strip l)) = some v)
    (halen : st.align_len = some a)
    (ha : a ≠ 0 ∧ 0 < a) :
    detailedStep st l = some (appendMatchD
      { st with
          bit_score := v,
          percent_identity := (st.identity : ℚ) / (a : ℚ) * 100 }) := by
  simp [detailedStep, applyBitD, hid, hal, hbit, hv, halen, ha]

/-- Evaluation of both extractors on a report whose lines are the iterations
marker followed by one record: an identity line, an align-len line and a
bit-score line (the shape used by the spec's threshold-boundary property). -/
theorem parse_single_record (xml L1 L2 L3 : List Char) (idv alv : Int) (bsv : ℚ)
    (hiter : containsSub iterMarker xml = true)
    (hsplit : pySplitlines xml = [iterMarker, L1, L2, L3])
    (h1id : containsSub identityMarker (strip L1) = true)
    (h1al : containsSub alignLenMarker (strip L1) = false)
    (h1bit : containsSub bitScoreMarker (strip L1) = false)
    (h1v : parsePyInt (fieldValue (strip L1)) = some idv)
    (h2id : containsSub identityMarker (strip L2) = false)
    (h2al : containsSub alignLenMarker (strip L2) = true)
    (h2bit : containsSub bitScoreMarker (strip L2) = false)
    (h2v : parsePyInt (fieldValue (strip L2)) = some alv)
    (h3id : containsSub identityMarker (strip L3) = false)
    (h3al : containsSub alignLenMarker (strip L3) = false)
    (h3bit : containsSub bitScoreMarker (strip L3) = true)
    (h3v : parsePyFloat (fieldValue (strip L3)) = some bsv)
    (halv : 0 < alv) :
    parse_blast_result xml
        = some (if 99 < (idv : ℚ) / (alv : ℚ) * 100 ∧ 54998 < bsv then 1 else -1)
  ∧ parse_blast_result_detailed xml
        = some ((if 99 < (idv : ℚ) / (alv : ℚ) * 100 ∧ 54998 < bsv then 1 else -1),
            (idv : ℚ) / (alv : ℚ) * 100, bsv) := by
  have hmark0 : containsSub identityMarker (strip iterMarker) = false
      ∧ containsSub alignLenMarker (strip iterMarker) = false
      ∧ containsSub bitScoreMarker (strip iterMarker) = false := by decide
  constructor
  · have s0 := simpleStep_no_marker simpleInit iterMarker hmark0.1 hmark0.2.1 hmark0.2.2
    have s1 := simpleStep_id_only simpleInit L1 idv h1id h1al h1bit h1v
    have s2 := simpleStep_align_only { simpleInit with identity := some idv } L2 alv
      h2id h2al h2bit h2v
    have s3 := simpleStep_bit_only_pos
      { simpleInit with identity := some idv, align_len := alv } L3 bsv idv
      h3id h3al h3bit h3v (by simpa using halv) (by simp)
    rw [parse_blast_result, if_pos hiter, hsplit,
      foldSteps_cons_some _ _ _ _ _ s0, foldSteps_cons_some _ _ _ _ _ s1,
      foldSteps_cons_some _ _ _ _ _ s2, foldSteps_cons_some _ _ _ _ _ s3,
      foldSteps_nil]
    by_cases hq : 99 < (idv : ℚ) / (alv : ℚ) * 100 ∧ 54998 < bsv
    · rw [appendMatchS_pos _ (by simpa using hq)]
      simp [hq]
    · rw [appendMatchS_neg _ (by simpa using hq)]
      simp [hq, simpleInit]
  · have d0 := detailedStep_no_marker detailedInit iterMarker hmark0.1 hmark0.2.1 hmark0.2.2
    have d1 := detailedStep_id detailedInit L1 idv h1id h1v
    have d2 := detailedStep_align { detailedInit with identity := idv } L2 alv h2id h2al h2v
    have d3 := detailedStep_bit_pos
      { detailedInit with identity := idv, align_len := some alv } L3 bsv alv
      h3id h3al h3bit h3v (by simp) (by omega)
    rw [parse_blast_result_detailed, if_pos hiter, hsplit,
      foldSteps_cons_some _ _ _ _ _ d0, foldSteps_cons_some _ _ _ _ _ d1,
      foldSteps_cons_some _ _ _ _ _ d2, foldSteps_cons_some _ _ _ _ _ d3,
      foldSteps_nil]
    by_cases hq : 99 < (idv : ℚ) / (alv : ℚ) * 100 ∧ 54998 < bsv
    · rw [appendMatchD_pos _ (by simpa using hq)]
      simp [hq]
    · rw [appendMatchD_neg _ (by simpa using hq)]
      simp [hq, detailedInit]

/-! ## Concrete reports for the threshold boundary -/

def lineId100 : List Char := "<Hsp_identity>100</Hsp_identity>".toList

def lineId99 : List Char := "<Hsp_identity>99</Hsp_identity>".toList

def lineAl100 : List Char := "<Hsp_align-len>100</Hsp_align-len>".toList

def lineBit54999 : List Char := "<Hsp_bit-score>54999</Hsp_bit-score>".toList

def lineBit54998 : List Char := "<Hsp_bit-score>54998</Hsp_bit-score>".toList

/-- Report with identity=100, align-len=100, bit-score=54999. -/
def reportA : List Char :=
  iterMarker ++ '\n' :: (lineId100 ++ '\n' :: (lineAl100 ++ '\n' :: lineBit54999))

/-- Report with identity=100, align-len=100, bit-score=54998. -/
def reportB : List Char :=
  iterMarker ++ '\n' :: (lineId100 ++ '\n' :: (lineAl100 ++ '\n' :: lineBit54998))

/-- Report with identity=99, align-len=100, bit-score=54999. -/
def reportC : List Char :=
  iterMarker ++ '\n' :: (lineId99 ++ '\n' :: (lineAl100 ++ '\n' :: lineBit54999))

/-- C3: the qualification thresholds are strict on both sides: percent
identity 100 with bit score 54999 qualifies; bit score exactly 54998 does
not; percent identity exactly 99 does not — for both extractors. -/
theorem threshold_boundary :
    parse_blast_result reportA = some 1
  ∧ parse_blast_result_detailed reportA = some (1, 100, 54999)
  ∧ parse_blast_result reportB = some (-1)
  ∧ parse_blast_result_detailed reportB = some (-1, 100, 54998)
  ∧ parse_blast_result reportC = some (-1)
  ∧ parse_blast_result_detailed reportC = some (-1, 99, 54999) := by
  have hA := parse_single_record reportA lineId100 lineAl100 lineBit54999 100 100 54999
    (by decide) (by decide) (by decide) (by decide) (by decide) (by decide) (by decide)
    (by decide) (by decide) (by decide) (by decide) (by decide) (by decide) (by decide)
    (by decide)
  have hB := parse_single_record reportB lineId100 lineAl100 lineBit54998 100 100 54998
    (by decide) (by decide) (by decide) (by decide) (by decide) (by decide) (by decide)
    (by decide) (by decide) (by decide) (by decide) (by decide) (by decide) (by decide)
    (by decide)
  have hC := parse_single_record reportC lineId99 lineAl100 lineBit54999 99 100 54999
    (by decide) (by decide) (by decide) (by decide) (by decide) (by decide) (by decide)
    (by decide) (by decide) (by decide) (by decide) (by decide) (by decide) (by decide)
    (by decide)
  have hqA : 99 < ((100 : Int) : ℚ) / ((100 : Int) : ℚ) * 100 ∧ (54998 : ℚ) < 54999 := by
    norm_num
  have hqB : ¬(99 < ((100 : Int) : ℚ) / ((100 : Int) : ℚ) * 100 ∧ (54998 : ℚ) < 54998) := by
    norm_num
  have hqC : ¬(99 < ((99 : Int) : ℚ) / ((100 : Int) : ℚ) * 100 ∧ (54998 : ℚ) < 54999) := by
    norm_num
  refine ⟨?_, ?_, ?_, ?_, ?_, ?_⟩
  · rw [hA.1, if_pos hqA]
  · rw [hA.2, if_pos hqA]
    norm_num
  · rw [hB.1, if_neg hqB]
  · rw [hB.2, if_neg hqB]
    norm_num
  · rw [hC.1, if_neg hqC]
  · rw [hC.2, if_neg hqC]
    norm_num

/-- C5: a report without the iterations marker short-circuits both
extractors: `parse_blast_result` returns -1 and
`parse_blast_result_detailed` returns (-1, 0.0, 0.0), regardless of any
other content. -/
theorem no_iterations_short_circuit (xml : List Char)
    (h : containsSub iterMarker xml = false) :
    parse_blast_result xml = some (-1)
  ∧ parse_blast_result_detailed xml = some (-1, 0, 0) := by
  constructor
  · rw [parse_blast_result, if_neg (by simp [h])]
  · rw [parse_blast_result_detailed, if_neg (by simp [h])]

/-- Witness for C5: a report that even contains a qualifying-looking record
but no iterations marker. -/
theorem no_iterations_short_circuit_witness :
    containsSub iterMarker ("<Hsp_identity>100</Hsp_identity>".toList) = false
  ∧ (parse_blast_result ("<Hsp_identity>100</Hsp_identity>".toList) = some (-1)
     ∧ parse_blast_result_detailed ("<Hsp_identity>100</Hsp_identity>".toList)
         = some (-1, 0, 0)) :=
  ⟨by decide, no_iterations_short_circuit _ (by decide)⟩

/-- A report on which the two extractors disagree: after an align-len line,
a single line contains both the identity marker and the bit-score marker.
The `if` chain of `parse_blast_result` processes it as an identity line
*and* as a bit-score line (field value 55000, percent identity 55000,
qualifying), while the `elif` chain of `parse_blast_result_detailed`
processes it only as an identity line, so no record ever qualifies. -/
def reportDisagree : List Char :=
  iterMarker ++ '\n' :: ("<Hsp_align-len>100</a>".toList
    ++ '\n' :: "<Hsp_identity>55000</i> <Hsp_bit-score>".toList)

/-- C8 counterexample: the simple extractor returns match id 1 while the
detailed extractor returns match id -1 on `reportDisagree`. -/
theorem extractor_agreement_cex :
    parse_blast_result reportDisagree = some 1
  ∧ parse_blast_result_detailed reportDisagree = some (-1, 0, 0) := by
  have hsplit : pySplitlines reportDisagree
      = [iterMarker, "<Hsp_align-len>100</a>".toList,
         "<Hsp_identity>55000</i> <Hsp_bit-score>".toList] := by decide
  constructor
  · have s0 := simpleStep_no_marker simpleInit iterMarker
      (by decide) (by decide) (by decide)
    have s1 := simpleStep_align_only simpleInit ("<Hsp_align-len>100</a>".toList) 100
      (by decide) (by decide) (by decide) (by decide)
    have s2 := simpleStep_id_bit { simpleInit with align_len := 100 }
      ("<Hsp_identity>55000</i> <Hsp_bit-score>".toList) 55000 55000
      (by decide) (by decide) (by decide) (by decide) (by decide) (by simp [simpleInit])
    rw [parse_blast_result, if_pos (by decide), hsplit,
      foldSteps_cons_some _ _ _ _ _ s0, foldSteps_cons_some _ _ _ _ _ s1,
      foldSteps_cons_some _ _ _ _ _ s2, foldSteps_nil]
    rw [appendMatchS_pos _ (by norm_num)]
    simp
  · have d0 := detailedStep_no_marker detailedInit iterMarker
      (by decide) (by decide) (by decide)
    have d1 := detailedStep_align detailedInit ("<Hsp_align-len>100</a>".toList) 100
      (by decide) (by decide) (by decide)
    have d2 := detailedStep_id { detailedInit with align_len := some 100 }
      ("<Hsp_identity>55000</i> <Hsp_bit-score>".toList) 55000
      (by decide) (by decide)
    rw [parse_blast_result_detailed, if_pos (by decide), hsplit,
      foldSteps_cons_some _ _ _ _ _ d0, foldSteps_cons_some _ _ _ _ _ d1,
      foldSteps_cons_some _ _ _ _ _ d2, foldSteps_nil]
    simp [detailedInit]

/-! ## Agreement of the two extractors (C8) -/

/-- Number of distinct field markers occurring in the stripped line. -/
def markerCount (rawLine : List Char) : Nat :=
  (if containsSub identityMarker (strip rawLine) then 1 else 0)
  + (if containsSub alignLenMarker (strip rawLine) then 1 else 0)
  + (if containsSub bitScoreMarker (strip rawLine) then 1 else 0)

/-- Coupling invariant between the loop states of the two extractors.
`align_len` starts as `0` in the simple parser and as `None` in the detailed
one; an unassigned `identity` on the simple side is unconstrained. -/
def StatesAgree (s : SimpleState) (d : DetailedState) : Prop :=
  s.matchList = d.matchList
  ∧ s.percent_identity = d.percent_identity
  ∧ s.bit_score = d.bit_score
  ∧ s.align_len = (match d.align_len with | none => 0 | some a => a)
  ∧ (∀ v, s.identity = some v → d.identity = v)

theorem appendMatch_couple (s : SimpleState) (d : DetailedState)
    (h : StatesAgree s d) : StatesAgree (appendMatchS s) (appendMatchD d) := by
  obtain ⟨hm, hp, hb, ha, hi⟩ := h
  unfold appendMatchS appendMatchD
  rw [hp, hb]
  by_cases hc : 99 < d.percent_identity ∧ 54998 < d.bit_score
  · rw [if_pos hc, if_pos hc]
    exact ⟨by simp [hm], by simp [hp], by simp [hb], by simp [ha], by simpa using hi⟩
  · rw [if_neg hc, if_neg hc]
    exact ⟨hm, hp, hb, ha, hi⟩

theorem step_couple (s : SimpleState) (d : DetailedState) (l : List Char)
    (hcnt : markerCount l ≤ 1) (hR : StatesAgree s d) (s' : SimpleState)
    (d' : DetailedState) (hs : simpleStep s l = some s')
    (hd : detailedStep d l = some d') : StatesAgree s' d' := by
  obtain ⟨hm, hp, hb, ha, hi⟩ := hR
  cases hid : containsSub identityMarker (strip l) with
  | true =>
    have hal : containsSub alignLenMarker (strip l) = false := by
      cases hal : containsSub alignLenMarker (strip l) with
      | true =>
        cases hbit : containsSub bitScoreMarker (strip l) <;>
          simp [markerCount, hid, hal, hbit] at hcnt
      | false => rfl
    have hbit : containsSub bitScoreMarker (strip l) = false := by
      cases hbit : containsSub bitScoreMarker (strip l) with
      | true => simp [markerCount, hid, hal, hbit] at hcnt
      | false => rfl
    cases hpv : parsePyInt (fieldValue (strip l)) with
    | none =>
      simp [simpleStep, applyIdentityS, hid, hpv] at hs
    | some v =>
      rw [simpleStep_id_only s l v hid hal hbit hpv] at hs
      rw [detailedStep_id d l v hid hpv] at hd
      cases hs
      cases hd
      exact ⟨hm, hp, hb, ha, by simp⟩
  | false =>
    cases hal : containsSub alignLenMarker (strip l) with
    | true =>
      have hbit : containsSub bitScoreMarker (strip l) = false := by
        cases hbit : containsSub bitScoreMarker (strip l) with
        | true => simp [markerCount, hid, hal, hbit] at hcnt
        | false => rfl
      cases hpv : parsePyInt (fieldValue (strip l)) with
      | none =>
        simp [simpleStep, applyIdentityS, applyAlignS, hid, hal, hpv] at hs
      | some v =>
        rw [simpleStep_align_only s l v hid hal hbit hpv] at hs
        rw [detailedStep_align d l v hid hal hpv] at hd
        cases hs
        cases hd
        exact ⟨hm, hp, hb, by simp, by simpa using hi⟩
    | false =>
      cases hbit : containsSub bitScoreMarker (strip l) with
      | false =>
        rw [simpleStep_no_marker s l hid hal hbit] at hs
        rw [detailedStep_no_marker d l hid hal hbit] at hd
        cases hs
        cases hd
        exact ⟨hm, hp, hb, ha, hi⟩
      | true =>
        cases hpv : parsePyFloat (fieldValue (strip l)) with
        | none =>
          simp [simpleStep, applyIdentityS, applyAlignS, applyBitS,
            hid, hal, hbit, hpv] at hs
        | some v =>
          cases halen : d.align_len with
          | none =>
            have hsa : s.align_len = 0 := by rw [ha, halen]
            simp only [simpleStep, applyIdentityS, applyAlignS, applyBitS,
              hid, hal, hbit, hpv, if_false, if_true, Bool.false_eq_true,
              if_neg (by simp [hsa] : ¬(0 : Int) < { s with bit_score := v }.align_len)] at hs
            simp only [detailedStep, applyBitD, hid, hal, hbit, hpv,
              if_false, if_true, Bool.false_eq_true, halen] at hd
            cases hs
            cases hd
            exact appendMatch_couple _ _
              ⟨hm, hp, by simp [hb], by simp [ha, halen], by simpa using hi⟩
          | some a =>
            have hsa : s.align_len = a := by rw [ha, halen]
            by_cases hapos : 0 < a
            · cases hident : s.identity with
              | none =>
                simp [simpleStep, applyIdentityS, applyAlignS, applyBitS,
                  hid, hal, hbit, hpv, hsa, hapos, hident] at hs
              | some idv =>
                rw [simpleStep_bit_only_pos s l v idv hid hal hbit hpv
                  (by rw [hsa]; exact hapos) hident] at hs
                rw [detailedStep_bit_pos d l v a hid hal hbit hpv halen
                  ⟨by omega, hapos⟩] at hd
                cases hs
                cases hd
                have hdi : d.identity = idv := hi idv hident
                exact appendMatch_couple _ _
                  ⟨hm, by simp [hsa, hdi], by simp, by simp [ha, halen], by simpa using hi⟩
            · simp only [simpleStep, applyIdentityS, applyAlignS, applyBitS,
                hid, hal, hbit, hpv, if_false, if_true, Bool.false_eq_true,
                if_neg (by simp [hsa, hapos] :
                  ¬(0 : Int) < { s with bit_score := v }.align_len)] at hs
              simp only [detailedStep, applyBitD, hid, hal, hbit, hpv,
                if_false, if_true, Bool.false_eq_true, halen,
                if_neg (by omega : ¬(a ≠ 0 ∧ 0 < a))] at hd
              cases hs
              cases hd
              exact appendMatch_couple _ _
                ⟨hm, hp, by simp [hb], by simp [ha, halen], by simpa using hi⟩

theorem fold_couple (lines : List (List Char)) :
    ∀ (s : SimpleState) (d : DetailedState) (s' : SimpleState) (d' : DetailedState),
      StatesAgree s d → (∀ l ∈ lines, markerCount l ≤ 1) →
      foldSteps simpleStep s lines = some s' →
      foldSteps detailedStep d lines = some d' → StatesAgree s' d' := by
  induction lines with
  | nil =>
    intro s d s' d' hR _ hs hd
    cases hs
    cases hd
    exact hR
  | cons l ls ih =>
    intro s d s' d' hR hcnt hs hd
    cases hstep : simpleStep s l with
    | none => simp [foldSteps, hstep] at hs
    | some s1 =>
      cases hstepd : detailedStep d l with
      | none => simp [foldSteps, hstepd] at hd
      | some d1 =>
        simp only [foldSteps, hstep, hstepd] at hs hd
        exact ih s1 d1 s' d'
          (step_couple s d l (hcnt l (by simp)) hR s1 d1 hstep hstepd)
          (fun l2 hl2 => hcnt l2 (by simp [hl2])) hs hd

/-- C8 amended: on reports where both extractors succeed and every line of
the report contains at most one of the three field markers, the simple and
detailed extractors return the same match id. (As stated over all reports
the claim fails: see the counterexample `extractor_agreement_cex`, where a
line carries both the identity and the bit-score marker.) -/
theorem extractor_agreement_amended (xml : List Char) (m : Int) (t : Int × ℚ × ℚ)
    (hs : parse_blast_result xml = some m)
    (hd : parse_blast_result_detailed xml = some t)
    (hl : ∀ l ∈ pySplitlines xml, markerCount l ≤ 1) :
    t.1 = m := by
  by_cases hiter : containsSub iterMarker xml = true
  · rw [parse_blast_result, if_pos hiter] at hs
    rw [parse_blast_result_detailed, if_pos hiter] at hd
    cases hfs : foldSteps simpleStep simpleInit (pySplitlines xml) with
    | none => rw [hfs] at hs; cases hs
    | some sfin =>
      cases hfd : foldSteps detailedStep detailedInit (pySplitlines xml) with
      | none => rw [hfd] at hd; cases hd
      | some dfin =>
        rw [hfs] at hs
        rw [hfd] at hd
        have hR := fold_couple (pySplitlines xml) simpleInit detailedInit sfin dfin
          (by refine ⟨rfl, rfl, rfl, rfl, ?_⟩
              intro v hv
              simp [simpleInit] at hv)
          hl hfs hfd
        cases hs
        cases hd
        simp [hR.1]
  · have hiter2 : containsSub iterMarker xml = false := by
      simpa using hiter
    rw [parse_blast_result, if_neg (by simp [hiter2])] at hs
    rw [parse_blast_result_detailed, if_neg (by simp [hiter2])] at hd
    cases hs
    cases hd
    rfl

/-- Witness for the amended C8 on a one-line report with the iterations
marker and no record lines. -/
theorem extractor_agreement_amended_witness :
    parse_blast_result ("<BlastOutput_iterations>".toList) = some (-1)
  ∧ ((-1 : Int), (0 : ℚ), (0 : ℚ)).1 = (-1 : Int) :=
  ⟨by decide,
   extractor_agreement_amended ("<BlastOutput_iterations>".toList) (-1) (-1, 0, 0)
     (by decide) (by decide) (by decide)⟩

/-! ## `process_sequence` (lines 100-122). The file is modelled as the list
of its lines, as produced by Python's `for line in file`; the
`FileNotFoundError → exit(1)` branch is process-level I/O and out of scope. -/

/-- One iteration of the read loop: state is `(sequence_id, sequence)`.
A line starting with `>` replaces the id with `line.strip()[1:]`;
any other line appends `line.strip()` to the sequence. -/
def readLoop (st : List Char × List Char) (line : List Char) : List Char × List Char :=
  if beginsWith ['>'] line then ((strip line).drop 1, st.2)
  else (st.1, st.2 ++ strip line)

/-- The concatenated raw sequence accumulated by the read loop. -/
def rawSequence (fileLines : List (List Char)) : List Char :=
  (fileLines.foldl readLoop ([], [])).2

/-- The sequence id captured by the read loop (empty if no header line). -/
def sequenceIdOf (fileLines : List (List Char)) : List Char :=
  (fileLines.foldl readLoop ([], [])).1

/-- `sequence = sequence[:max_sequence_length]` (line 119). -/
def truncatedSequence (fileLines : List (List Char)) (maxLen : Nat) : List Char :=
  (rawSequence fileLines).take maxLen

/-- `process_sequence`: read, truncate, then `split_sequence(sequence)`
with the default chunk size 1000. -/
def process_sequence (fileLines : List (List Char)) (max_sequence_length : Nat := 5000) :
    List (List Char) :=
  split_sequence 1000 (truncatedSequence fileLines max_sequence_length)

/-- C6: if the concatenated raw sequence is no longer than
`max_sequence_length` it is passed to chunking unchanged; otherwise exactly
its first `max_sequence_length` characters are kept (a prefix of that
length), with no failure on overflow. -/
theorem truncation_spec (f : List (List Char)) (m : Nat) :
    ((rawSequence f).length ≤ m → truncatedSequence f m = rawSequence f)
  ∧ (m < (rawSequence f).length →
      (truncatedSequence f m).length = m ∧ truncatedSequence f m <+: rawSequence f)
  ∧ process_sequence f m = split_sequence 1000 (truncatedSequence f m) := by
  refine ⟨?_, ?_, rfl⟩
  · intro h
    exact List.take_of_length_le h
  · intro h
    constructor
    · rw [truncatedSequence, List.length_take]
      omega
    · exact List.take_prefix m (rawSequence f)

/-- Witness for C6 at a two-line file whose raw sequence "ABC" is longer
than the limit 2. -/
theorem truncation_spec_witness :
    (truncatedSequence [['>', 'i', 'd'], ['A', 'B', 'C']] 2).length = 2
  ∧ truncatedSequence [['>', 'i', 'd'], ['A', 'B', 'C']] 2
      <+: rawSequence [['>', 'i', 'd'], ['A', 'B', 'C']] :=
  (truncation_spec [['>', 'i', 'd'], ['A', 'B', 'C']] 2).2.1 (by decide)

/-- C9 counterexample: the read loop applies Python `str.strip()`, which
removes *leading* whitespace as well, so a non-header line " A" contributes
"A" to the raw sequence, not " A" as the claim's "stripped only of
line-ending whitespace" would require. -/
theorem raw_sequence_leading_ws_cex :
    rawSequence [[' ', 'A']] = ['A'] ∧ rawSequence [[' ', 'A']] ≠ [' ', 'A'] := by
  decide

theorem readLoop_foldl (f : List (List Char)) : ∀ (a s : List Char),
    f.foldl readLoop (a, s)
      = ((match (f.filter (fun l => beginsWith ['>'] l)).getLast? with
          | none => a
          | some l => (strip l).drop 1),
         s ++ ((f.filter (fun l => !beginsWith ['>'] l)).map strip).flatten) := by
  induction f with
  | nil =>
    intro a s
    simp
  | cons l rest ih =>
    intro a s
    cases hl : beginsWith ['>'] l with
    | true =>
      rw [List.foldl_cons]
      rw [show readLoop (a, s) l = ((strip l).drop 1, s) by simp [readLoop, hl]]
      rw [ih]
      have hfil : (l :: rest).filter (fun l => beginsWith ['>'] l)
          = l :: rest.filter (fun l => beginsWith ['>'] l) := by
        simp [List.filter_cons, hl]
      have hfil2 : (l :: rest).filter (fun l => !beginsWith ['>'] l)
          = rest.filter (fun l => !beginsWith ['>'] l) := by
        simp [List.filter_cons, hl]
      rw [hfil, hfil2, getLast?_cons_eq]
      cases hlast : (rest.filter (fun l => beginsWith ['>'] l)).getLast? with
      | none => simp [hlast]
      | some b => simp [hlast]
    | false =>
      rw [List.foldl_cons]
      rw [show readLoop (a, s) l = (a, s ++ strip l) by simp [readLoop, hl]]
      rw [ih]
      have hfil : (l :: rest).filter (fun l => beginsWith ['>'] l)
          = rest.filter (fun l => beginsWith ['>'] l) := by
        simp [List.filter_cons, hl]
      have hfil2 : (l :: rest).filter (fun l => !beginsWith ['>'] l)
          = l :: rest.filter (fun l => !beginsWith ['>'] l) := by
        simp [List.filter_cons, hl]
      rw [hfil, hfil2]
      simp

/-- C9 amended: `process_sequence` discards every line starting with the
header marker (the identifier is the last header line stripped, without its
leading `>`), and the raw sequence is the concatenation, in file order, of
every other line stripped of *both* leading and trailing whitespace
(Python `str.strip()`), interior characters preserved. -/
theorem raw_sequence_amended (f : List (List Char)) :
    rawSequence f = ((f.filter (fun l => !beginsWith ['>'] l)).map strip).flatten
  ∧ sequenceIdOf f
      = (match (f.filter (fun l => beginsWith ['>'] l)).getLast? with
         | none => []
         | some l => (strip l).drop 1) := by
  constructor
  · rw [rawSequence, readLoop_foldl]
    simp
  · rw [sequenceIdOf, readLoop_foldl]

/-! ## `write_results_to_file` (lines 165-173). The output file is modelled
as the list of written records; `none` models the `ValueError` that
`parse_blast_result_detailed` raises on a malformed report. -/

/-- One output line `f"{sequence_number},{part},{best_match_id}"`. -/
structure OutputLine where
  seq : Nat
  part : List Char
  matchId : Int
deriving DecidableEq

/-- The match id the writer extracts from a report (first component of
`parse_blast_result_detailed`); meaningful only when parsing succeeds. -/
def verdictOf (result : List Char) : Int :=
  match parse_blast_result_detailed result with
  | some t => t.1
  | none => -1

/-- The inner `for part in chunk_parts` loop with the running global
`sequence_number`. -/
def numberParts (matchId : Int) : Nat → List (List Char) → List OutputLine
  | _, [] => []
  | n, p :: ps => ⟨n, p, matchId⟩ :: numberParts matchId (n + 1) ps

/-- The outer `for (chunk, result) in zip(chunks, results)` loop:
parse the report, re-split the chunk into 20-character units
(`[chunk[i:i + 20] for i in range(0, len(chunk), 20)]`, i.e.
`split_sequence 20`), and emit one numbered line per unit. -/
def writeAux : Nat → List (List Char × List Char) → Option (List OutputLine)
  | _, [] => some []
  | n, (chunk, result) :: rest =>
    match parse_blast_result_detailed result with
    | none => none
    | some t =>
      let parts := split_sequence 20 chunk
      match writeAux (n + parts.length) rest with
      | none => none
      | some ls => some (numberParts t.1 n parts ++ ls)

/-- `write_results_to_file` with `sequence_number` starting at 1. -/
def write_results_to_file (chunks results : List (List Char)) :
    Option (List OutputLine) :=
  writeAux 1 (chunks.zip results)

/-- A report whose identity field is not an integer: `int("x")` raises. -/
def badReport : List Char := iterMarker ++ '\n' :: "<Hsp_identity>x</x>".toList

/-- C4 counterexample: on a one-chunk input whose report has a non-numeric
identity field, the writer emits no lines at all (`int("x")` raises
`ValueError`), although the chunk has one display unit — so the claim as
stated over *every* list of reports fails. -/
theorem write_results_cex :
    write_results_to_file [['A']] [badReport] = none
  ∧ split_sequence 20 ['A'] = [['A']] := by
  decide

theorem numberParts_map_seq (b : Int) : ∀ (n : Nat) (ps : List (List Char)),
    (numberParts b n ps).map (fun o => o.seq) = List.range' n ps.length := by
  intro n ps
  induction ps generalizing n with
  | nil => simp [numberParts]
  | cons p ps ih => simp [numberParts, List.range'_succ, ih]

theorem numberParts_map_pm (b : Int) : ∀ (n : Nat) (ps : List (List Char)),
    (numberParts b n ps).map (fun o => (o.part, o.matchId))
      = ps.map (fun p => (p, b)) := by
  intro n ps
  induction ps generalizing n with
  | nil => simp [numberParts]
  | cons p ps ih => simp [numberParts, ih]

theorem numberParts_length (b : Int) : ∀ (n : Nat) (ps : List (List Char)),
    (numberParts b n ps).length = ps.length := by
  intro n ps
  induction ps generalizing n with
  | nil => simp [numberParts]
  | cons p ps ih => simp [numberParts, ih]

theorem numberParts_matchId (b : Int) : ∀ (n : Nat) (ps : List (List Char)),
    ∀ o ∈ numberParts b n ps, o.matchId = b := by
  intro n ps
  induction ps generalizing n with
  | nil => simp [numberParts]
  | cons p ps ih =>
    intro o ho
    rcases List.mem_cons.mp ho with h1 | h2
    · rw [h1]
    · exact ih (n + 1) o h2

theorem parse_detailed_verdict (r : List Char) (t : Int × ℚ × ℚ)
    (h : parse_blast_result_detailed r = some t) : t.1 = 1 ∨ t.1 = -1 := by
  rw [parse_blast_result_detailed] at h
  by_cases hiter : containsSub iterMarker r = true
  · rw [if_pos hiter] at h
    cases hf : foldSteps detailedStep detailedInit (pySplitlines r) with
    | none => rw [hf] at h; cases h
    | some st =>
      rw [hf] at h
      cases h
      by_cases he : st.matchList.isEmpty
      · right; simp [he]
      · left; simp [he]
  · rw [if_neg (by simpa using hiter)] at h
    cases h
    right
    rfl

theorem writeAux_spec : ∀ (prs : List (List Char × List Char)) (n : Nat)
    (L : List OutputLine), writeAux n prs = some L →
    L.map (fun o => o.seq) = List.range' n L.length
  ∧ L.map (fun o => (o.part, o.matchId))
      = prs.flatMap (fun cr => (split_sequence 20 cr.1).map (fun p => (p, verdictOf cr.2)))
  ∧ (∀ o ∈ L, o.matchId = 1 ∨ o.matchId = -1) := by
  intro prs
  induction prs with
  | nil =>
    intro n L h
    cases h
    simp
  | cons cr rest ih =>
    intro n L h
    obtain ⟨chunk, result⟩ := cr
    rw [writeAux] at h
    cases hp : parse_blast_result_detailed result with
    | none => rw [hp] at h; cases h
    | some t =>
      rw [hp] at h
      cases hw : writeAux (n + (split_sequence 20 chunk).length) rest with
      | none =>
        simp only [hw] at h
        cases h
      | some ls =>
        simp only [hw] at h
        cases h
        obtain ⟨ih1, ih2, ih3⟩ := ih (n + (split_sequence 20 chunk).length) ls hw
        have hv : verdictOf result = t.1 := by simp [verdictOf, hp]
        refine ⟨?_, ?_, ?_⟩
        · rw [List.map_append, numberParts_map_seq, ih1, List.length_append,
            numberParts_length,
            Nat.add_comm (split_sequence 20 chunk).length ls.length]
          exact List.range'_append_1 n (split_sequence 20 chunk).length ls.length
        · rw [List.map_append, numberParts_map_pm, ih2, List.flatMap_cons, hv]
        · intro o ho
          rcases List.mem_append.mp ho with h1 | h2
          · rw [numberParts_matchId t.1 n _ o h1]
            exact parse_detailed_verdict result t hp
          · exact ih3 o h2

theorem split_sequence_len25 (c : List Char) (hc : c.length = 25) :
    split_sequence 20 c = [c.take 20, c.drop 20] := by
  have h1 : c ≠ [] := by
    intro h
    rw [h] at hc
    simp at hc
  rw [split_sequence_cons 20 (by norm_num) c h1]
  have h2 : c.drop 20 ≠ [] := by
    intro h
    have := congrArg List.length h
    simp [hc] at this
  rw [split_sequence_cons 20 (by norm_num) _ h2]
  have h3 : (c.drop 20).drop 20 = [] := by
    rw [List.drop_drop]
    exact List.drop_eq_nil_of_le (by omega)
  have h4 : (c.drop 20).take 20 = c.drop 20 :=
    List.take_of_length_le (by simp [hc])
  rw [h3, split_sequence_nil, h4]

/-- C4 amended: for equally long chunk and report lists *on which the
writer succeeds* (every report parses without exception; see
`write_results_cex` for the failure case), each chunk is split in order into
contiguous 20-character units (last possibly shorter), one line is emitted
per unit, the sequence numbers are globally `1, 2, 3, ...` in emission
order (never reset per chunk), the match id is the report's verdict
(1 or -1) and is constant across a chunk's units; in particular two chunks
of length 25 produce exactly the sequence numbers 1,2,3,4. -/
theorem write_results_spec (chunks results : List (List Char)) (L : List OutputLine)
    (hlen : chunks.length = results.length)
    (hw : write_results_to_file chunks results = some L) :
    (∀ i (h : i < L.length), (L.get ⟨i, h⟩).seq = i + 1)
  ∧ L.map (fun o => (o.part, o.matchId))
      = (chunks.zip results).flatMap
          (fun cr => (split_sequence 20 cr.1).map (fun p => (p, verdictOf cr.2)))
  ∧ (∀ o ∈ L, o.matchId = 1 ∨ o.matchId = -1)
  ∧ (chunks.length = 2 → (∀ c ∈ chunks, c.length = 25) →
      L.map (fun o => o.seq) = [1, 2, 3, 4]) := by
  obtain ⟨h1, h2, h3⟩ := writeAux_spec (chunks.zip results) 1 L hw
  refine ⟨?_, h2, h3, ?_⟩
  · intro i h
    have hv : (L.map (fun o => o.seq))[i]? = (List.range' 1 L.length)[i]? := by
      rw [h1]
    rw [List.getElem?_map, List.getElem?_range' 1 1 h,
      List.getElem?_eq_getElem h] at hv
    simp at hv
    rw [List.get_eq_getElem, hv]
    omega
  · intro hc2 hc25
    obtain ⟨c1, c2, rfl⟩ := List.length_eq_two.mp hc2
    have hr2 : results.length = 2 := by omega
    obtain ⟨r1, r2, rfl⟩ := List.length_eq_two.mp hr2
    have hs1 := split_sequence_len25 c1 (hc25 c1 (by simp))
    have hs2 := split_sequence_len25 c2 (hc25 c2 (by simp))
    have hlen4 : L.length = 4 := by
      have := congrArg List.length h2
      simp only [List.length_map] at this
      rw [this]
      simp [hs1, hs2]
    rw [h1, hlen4]
    rfl

/-- Witness for the amended C4: one chunk "ab" with an empty report (no
iterations marker, so it parses to verdict -1), producing the single line
(1, "ab", -1). -/
theorem write_results_spec_witness :
    (∀ i (h : i < ([⟨1, ['a','b'], -1⟩] : List OutputLine).length),
      (([⟨1, ['a','b'], -1⟩] : List OutputLine).get ⟨i, h⟩).seq = i + 1)
  ∧ ([⟨1, ['a','b'], -1⟩] : List OutputLine).map (fun o => (o.part, o.matchId))
      = ([(['a','b'], [])] : List (List Char × List Char)).flatMap
          (fun cr => (split_sequence 20 cr.1).map (fun p => (p, verdictOf cr.2)))
  ∧ (∀ o ∈ ([⟨1, ['a','b'], -1⟩] : List OutputLine), o.matchId = 1 ∨ o.matchId = -1)
  ∧ (([['a','b']] : List (List Char)).length = 2 →
      (∀ c ∈ ([['a','b']] : List (List Char)), c.length = 25) →
      ([⟨1, ['a','b'], -1⟩] : List OutputLine).map (fun o => o.seq) = [1, 2, 3, 4]) := by
  have h := write_results_spec [['a','b']] [[]] [⟨1, ['a','b'], -1⟩] (by decide) (by decide)
  exact ⟨h.1, by simpa using h.2.1, h.2.2.1, h.2.2.2⟩

/-! ## JobClient response handling and the `__main__` pipeline
(lines 7-57 and 179-218). The HTTP transport is an external collaborator:
response bodies are supplied by oracles (per chunk index and poll count),
and the functions below extract from them exactly as the source does. -/

def ridMarker : List Char := "RID = ".toList

/-- `splitFirstOn sep s`: the text before and after the first occurrence of
`sep` in `s`; `none` if `sep` does not occur. -/
def splitFirstOn (sep : List Char) : List Char → Option (List Char × List Char)
  | [] => if sep.isEmpty then some ([], []) else none
  | c :: rest =>
    if beginsWith sep (c :: rest) then some ([], (c :: rest).drop sep.length)
    else
      match splitFirstOn sep rest with
      | some (pre, post) => some (c :: pre, post)
      | none => none

/-- `submit_blast_query` applied to a given response body:
`rid = response.text.split("RID = ")[1].split("\n")[0].strip()` when the
marker is present (segment `[1]` runs up to the next marker occurrence),
`None` otherwise. -/
def submit_blast_query_of (responseText : List Char) : Option (List Char) :=
  if containsSub ridMarker responseText then
    match splitFirstOn ridMarker responseText with
    | none => none
    | some (_, after) =>
      let seg1 :=
        match splitFirstOn ridMarker after with
        | some (pre, _) => pre
        | none => after
      some (strip ((splitOnChar '\n' seg1).headD []))
  else none

/-- `check_blast_status` applied to a given response body:
`some true` for `Status=READY`, `some false` for `Status=WAITING`,
`none` (ambiguous) otherwise. -/
def check_blast_status_of (responseText : List Char) : Option Bool :=
  if containsSub ("Status=READY".toList) responseText then some true
  else if containsSub ("Status=WAITING".toList) responseText then some false
  else none

/-- Observable events of the per-chunk polling loop. -/
inductive Event where
  | poll (result : Option Bool)
  | sleep (seconds : Nat)
  | fetch
deriving DecidableEq

/-- The `while True` polling loop (lines 200-208), fuel-indexed: poll k-th
status; `READY` breaks, `WAITING` sleeps 5 seconds and re-polls,
anything else re-polls immediately (`continue`). Returns the event trace
and whether the loop exited with `READY`. -/
def pollLoop (status : Nat → Option Bool) : Nat → Nat → List Event × Bool
  | 0, _ => ([], false)
  | fuel + 1, k =>
    match status k with
    | some true => ([Event.poll (some true)], true)
    | some false =>
      let r := pollLoop status fuel (k + 1)
      (Event.poll (some false) :: Event.sleep 5 :: r.1, r.2)
    | none =>
      let r := pollLoop status fuel (k + 1)
      (Event.poll none :: r.1, r.2)

/-- Poll-loop trace followed by the fetch that happens exactly when the
loop broke out on `READY` (line 211). -/
def chunkEventsAux (status : Nat → Option Bool) (fuel k : Nat) : List Event :=
  (pollLoop status fuel k).1 ++ (if (pollLoop status fuel k).2 then [Event.fetch] else [])

/-- The full observable event trace for one successfully submitted chunk. -/
def chunkEvents (status : Nat → Option Bool) (fuel : Nat) : List Event :=
  chunkEventsAux status fuel 0

/-- Allowed successor of each event: a `WAITING` poll is followed by the
5-second sleep, an ambiguous poll by an immediate re-poll (no sleep), a
`READY` poll only by the fetch, a sleep by a re-poll, and nothing follows a
fetch. -/
def nextOk : Event → Event → Prop
  | Event.poll (some false), e => e = Event.sleep 5
  | Event.poll none, e => ∃ r, e = Event.poll r
  | Event.poll (some true), e => e = Event.fetch
  | Event.sleep _, e => ∃ r, e = Event.poll r
  | Event.fetch, _ => False

theorem chunkEventsAux_chain (status : Nat → Option Bool) :
    ∀ (fuel k : Nat),
      List.Chain' nextOk (chunkEventsAux status fuel k)
    ∧ (∀ e, (chunkEventsAux status fuel k).head? = some e → ∃ r, e = Event.poll r) := by
  intro fuel
  induction fuel with
  | zero =>
    intro k
    exact ⟨by simp [chunkEventsAux, pollLoop], by simp [chunkEventsAux, pollLoop]⟩
  | succ n ih =>
    intro k
    cases hst : status k with
    | some b =>
      cases b with
      | true =>
        have he : chunkEventsAux status (n + 1) k = [Event.poll (some true), Event.fetch] := by
          simp [chunkEventsAux, pollLoop, hst]
        rw [he]
        constructor
        · exact List.chain'_pair.mpr rfl
        · intro e hesome
          simp at hesome
          exact ⟨some true, hesome.symm⟩
      | false =>
        have he : chunkEventsAux status (n + 1) k
            = Event.poll (some false) :: Event.sleep 5 :: chunkEventsAux status n (k + 1) := by
          simp [chunkEventsAux, pollLoop, hst]
        rw [he]
        obtain ⟨ihc, ihh⟩ := ih (k + 1)
        constructor
        · rw [List.chain'_cons']
          constructor
          · intro e hesome
            simp at hesome
            exact hesome.symm
          · rw [List.chain'_cons']
            exact ⟨fun e hesome => ihh e hesome, ihc⟩
        · intro e hesome
          simp at hesome
          exact ⟨some false, hesome.symm⟩
    | none =>
      have he : chunkEventsAux status (n + 1) k
          = Event.poll none :: chunkEventsAux status n (k + 1) := by
        simp [chunkEventsAux, pollLoop, hst]
      rw [he]
      obtain ⟨ihc, ihh⟩ := ih (k + 1)
      constructor
      · rw [List.chain'_cons']
        exact ⟨fun e hesome => ihh e hesome, ihc⟩
      · intro e hesome
        simp at hesome
        exact ⟨none, hesome.symm⟩

theorem pollLoop_no_fetch (status : Nat → Option Bool) :
    ∀ (fuel k : Nat), Event.fetch ∉ (pollLoop status fuel k).1 := by
  intro fuel
  induction fuel with
  | zero => intro k; simp [pollLoop]
  | succ n ih =>
    intro k
    cases hst : status k with
    | some b =>
      cases b with
      | true => simp [pollLoop, hst]
      | false => simp [pollLoop, hst]; exact ih (k + 1)
    | none => simp [pollLoop, hst]; exact ih (k + 1)

/-- C10: over any status oracle and any fuel, the per-chunk event trace
starts (if nonempty) with a poll and every adjacent pair respects `nextOk`:
a fetch happens only immediately after a poll that returned Ready, a
Waiting poll is followed by the fixed 5-second sleep and then a re-poll, an
Unknown poll is followed immediately by a re-poll with no sleep; a fetch
occurs only when the loop exited on Ready; and with an always-Unknown
oracle the loop re-polls once per unit of fuel without ever finishing —
there is no bound on the number of retries. -/
theorem poll_loop_temporal :
    (∀ (status : Nat → Option Bool) (fuel : Nat),
      List.Chain' nextOk (chunkEvents status fuel)
      ∧ (∀ e, (chunkEvents status fuel).head? = some e → ∃ r, e = Event.poll r)
      ∧ (Event.fetch ∈ chunkEvents status fuel → (pollLoop status fuel 0).2 = true))
  ∧ (∀ (n k : Nat),
      pollLoop (fun _ => none) n k = (List.replicate n (Event.poll none), false)) := by
  constructor
  · intro status fuel
    obtain ⟨hc, hh⟩ := chunkEventsAux_chain status fuel 0
    refine ⟨hc, hh, ?_⟩
    intro hmem
    by_contra hdone
    have hdone2 : (pollLoop status fuel 0).2 = false := by
      cases h2 : (pollLoop status fuel 0).2
      · rfl
      · exact absurd h2 hdone
    rw [chunkEvents, chunkEventsAux, hdone2] at hmem
    simp at hmem
    exact pollLoop_no_fetch status fuel 0 hmem
  · intro n
    induction n with
    | zero => intro k; simp [pollLoop]
    | succ m ih =>
      intro k
      simp [pollLoop, ih (k + 1), List.replicate_succ]

/-- Witness for C10 with a Waiting-then-Ready oracle and fuel 3: the trace
is poll Waiting, sleep 5, poll Ready, fetch. -/
theorem poll_loop_temporal_witness :
    chunkEvents (fun k => if k = 0 then some false else some true) 3
      = [Event.poll (some false), Event.sleep 5, Event.poll (some true), Event.fetch]
  ∧ List.Chain' nextOk (chunkEvents (fun k => if k = 0 then some false else some true) 3) :=
  ⟨by decide,
   (poll_loop_temporal.1 (fun k => if k = 0 then some false else some true) 3).1⟩

/-- Python falsiness of the rid: `if not rid:` skips on `None` *or* the
empty string. -/
def pyFalsyStr : Option (List Char) → Bool
  | none => true
  | some s => s.isEmpty

/-- The `for chunk in chunks` loop of `__main__` (lines 192-211): submit the
chunk (response supplied by the oracle for that chunk's position); on a
falsy rid print an error and `continue` (no report appended); otherwise
poll until ready (oracle indexed by poll count) and append the fetched
report. `none` models a polling loop that never sees READY within the
fuel. -/
def runPipelineAux (submitResp : Nat → List Char) (statusResp : Nat → Nat → List Char)
    (fetchResp : Nat → List Char) (fuel : Nat) :
    Nat → List (List Char) → Option (List (List Char))
  | _, [] => some []
  | i, _chunk :: rest =>
    let rid := submit_blast_query_of (submitResp i)
    if pyFalsyStr rid then
      runPipelineAux submitResp statusResp fetchResp fuel (i + 1) rest
    else if (pollLoop (fun k => check_blast_status_of (statusResp i k)) fuel 0).2 then
      match runPipelineAux submitResp statusResp fetchResp fuel (i + 1) rest with
      | none => none
      | some rs => some (fetchResp i :: rs)
    else none

/-- The accumulated `results` list of the pipeline. -/
def runPipeline (submitResp : Nat → List Char) (statusResp : Nat → Nat → List Char)
    (fetchResp : Nat → List Char) (fuel : Nat) (chunks : List (List Char)) :
    Option (List (List Char)) :=
  runPipelineAux submitResp statusResp fetchResp fuel 0 chunks

/-- C7: when `submit_blast_query` returns a falsy rid for a chunk (in
particular `None`, no RID marker in the response), the pipeline skips that
chunk without raising and continues with the remaining chunks, appending no
report for it; with exactly one chunk whose submission fails, the results
list is empty and the writer, given that empty list, creates an output with
zero data lines. -/
theorem submit_failure_skip :
    (∀ (sr : Nat → List Char) (st : Nat → Nat → List Char) (fr : Nat → List Char)
       (fuel i : Nat) (c : List Char) (rest : List (List Char)),
      pyFalsyStr (submit_blast_query_of (sr i)) = true →
      runPipelineAux sr st fr fuel i (c :: rest) = runPipelineAux sr st fr fuel (i + 1) rest)
  ∧ (∀ (sr : Nat → List Char) (st : Nat → Nat → List Char) (fr : Nat → List Char)
       (fuel : Nat) (c : List Char),
      submit_blast_query_of (sr 0) = none →
      runPipeline sr st fr fuel [c] = some []
      ∧ write_results_to_file [c] [] = some []) := by
  constructor
  · intro sr st fr fuel i c rest h
    rw [runPipelineAux]
    simp only [h]
    simp
  · intro sr st fr fuel c h
    constructor
    · rw [runPipeline, runPipelineAux]
      simp only [h]
      simp [pyFalsyStr, runPipelineAux]
    · rfl

/-- Witness for C7: a submit response with no RID marker, one chunk. -/
theorem submit_failure_skip_witness :
    runPipeline (fun _ => "no rid here".toList) (fun _ _ => []) (fun _ => []) 5
        [['A','C','G','T']] = some []
  ∧ write_results_to_file [['A','C','G','T']] [] = some [] :=
  submit_failure_skip.2 (fun _ => "no rid here".toList) (fun _ _ => []) (fun _ => []) 5
    ['A','C','G','T'] (by decide)

/-! ## Carried-state semantics of `parse_blast_result_detailed` (C2) -/

/-- A line processed by the bit-score branch of the `elif` chain: it carries
the bit-score marker and neither of the two markers checked before it. -/
def isBitScoreEvent (rawLine : List Char) : Bool :=
  !containsSub identityMarker (strip rawLine)
  && !containsSub alignLenMarker (strip rawLine)
  && containsSub bitScoreMarker (strip rawLine)

theorem detailedStep_preserve_fields (st st' : DetailedState) (l : List Char)
    (hev : isBitScoreEvent l = false) (h : detailedStep st l = some st') :
    st'.percent_identity = st.percent_identity ∧ st'.bit_score = st.bit_score := by
  cases hid : containsSub identityMarker (strip l) with
  | true =>
    cases hpv : parsePyInt (fieldValue (strip l)) with
    | none => simp [detailedStep, hid, hpv] at h
    | some v =>
      rw [detailedStep_id st l v hid hpv] at h
      cases h
      exact ⟨rfl, rfl⟩
  | false =>
    cases hal : containsSub alignLenMarker (strip l) with
    | true =>
      cases hpv : parsePyInt (fieldValue (strip l)) with
      | none => simp [detailedStep, hid, hal, hpv] at h
      | some v =>
        rw [detailedStep_align st l v hid hal hpv] at h
        cases h
        exact ⟨rfl, rfl⟩
    | false =>
      have hbit : containsSub bitScoreMarker (strip l) = false := by
        simpa [isBitScoreEvent, hid, hal] using hev
      rw [detailedStep_no_marker st l hid hal hbit] at h
      cases h
      exact ⟨rfl, rfl⟩

theorem foldSteps_preserve_fields : ∀ (ls : List (List Char)) (st st' : DetailedState),
    (∀ l ∈ ls, isBitScoreEvent l = false) →
    foldSteps detailedStep st ls = some st' →
    st'.percent_identity = st.percent_identity ∧ st'.bit_score = st.bit_score := by
  intro ls
  induction ls with
  | nil =>
    intro st st' _ h
    cases h
    exact ⟨rfl, rfl⟩
  | cons l ls ih =>
    intro st st' hall h
    cases hstep : detailedStep st l with
    | none => simp [foldSteps, hstep] at h
    | some st1 =>
      simp only [foldSteps, hstep] at h
      obtain ⟨hp1, hb1⟩ := detailedStep_preserve_fields st st1 l (hall l (by simp)) hstep
      obtain ⟨hp2, hb2⟩ := ih st1 st' (fun l2 hl2 => hall l2 (by simp [hl2])) h
      exact ⟨hp2.trans hp1, hb2.trans hb1⟩

theorem foldSteps_append_some {σ : Type} (step : σ → List Char → Option σ) :
    ∀ (p q : List (List Char)) (st st1 : σ),
      foldSteps step st p = some st1 →
      foldSteps step st (p ++ q) = foldSteps step st1 q := by
  intro p
  induction p with
  | nil =>
    intro q st st1 h
    cases h
    rfl
  | cons l ls ih =>
    intro q st st1 h
    cases hstep : step st l with
    | none => simp [foldSteps, hstep] at h
    | some st2 =>
      simp only [foldSteps, hstep] at h
      simp only [List.cons_append, foldSteps, hstep]
      exact ih q st2 st1 h

theorem foldSteps_append_none {σ : Type} (step : σ → List Char → Option σ) :
    ∀ (p q : List (List Char)) (st : σ),
      foldSteps step st p = none →
      foldSteps step st (p ++ q) = none := by
  intro p
  induction p with
  | nil =>
    intro q st h
    cases h
  | cons l ls ih =>
    intro q st h
    cases hstep : step st l with
    | none => simp [foldSteps, hstep]
    | some st2 =>
      simp only [foldSteps, hstep] at h
      simp only [List.cons_append, foldSteps, hstep]
      exact ih q st2 h

theorem appendMatchD_fields (st : DetailedState) :
    (appendMatchD st).percent_identity = st.percent_identity
  ∧ (appendMatchD st).bit_score = st.bit_score := by
  unfold appendMatchD
  by_cases hc : 99 < st.percent_identity ∧ 54998 < st.bit_score
  · rw [if_pos hc]
    exact ⟨rfl, rfl⟩
  · rw [if_neg hc]
    exact ⟨rfl, rfl⟩

theorem applyBitD_fields (st st' : DetailedState) (l' : List Char)
    (h : applyBitD st l' = some st') :
    ∃ v, parsePyFloat (fieldValue l') = some v ∧ st'.bit_score = v
      ∧ st'.percent_identity
          = (match st.align_len with
             | some a => if a ≠ 0 ∧ 0 < a then (st.identity : ℚ) / (a : ℚ) * 100
                         else st.percent_identity
             | none => st.percent_identity) := by
  rw [applyBitD] at h
  cases hv : parsePyFloat (fieldValue l') with
  | none => rw [hv] at h; cases h
  | some v =>
    rw [hv] at h
    refine ⟨v, rfl, ?_⟩
    cases halen : st.align_len with
    | none =>
      simp only [halen] at h
      cases h
      exact ⟨(appendMatchD_fields _).2, (appendMatchD_fields _).1⟩
    | some a =>
      simp only [halen] at h
      by_cases ha : a ≠ 0 ∧ 0 < a
      · rw [if_pos ha] at h
        cases h
        refine ⟨(appendMatchD_fields _).2, ?_⟩
        rw [(appendMatchD_fields _).1]
        simp [ha]
      · rw [if_neg ha] at h
        cases h
        refine ⟨(appendMatchD_fields _).2, ?_⟩
        rw [(appendMatchD_fields _).1]
        simp [ha]

theorem detailedStep_bit_event (st : DetailedState) (l : List Char)
    (hev : isBitScoreEvent l = true) :
    detailedStep st l = applyBitD st (strip l) := by
  simp only [isBitScoreEvent, Bool.and_eq_true, Bool.not_eq_true'] at hev
  obtain ⟨⟨hid, hal⟩, hbit⟩ := hev
  simp [detailedStep, hid, hal, hbit]

/-- C2: for a successful run of `parse_blast_result_detailed` on a report
containing the iterations marker: if no line is processed by the bit-score
branch, the returned percent identity and bit score are still the initial
0.0 and 0.0; and whenever the lines decompose as `p ++ l :: s` with `l` the
*last* bit-score line, the returned bit score is the value parsed on `l`,
and the returned percent identity is `identity / align_len * 100` computed
from the state accumulated over `p` (the most recently seen identity and
align-len) when that align-len is present and positive, and otherwise the
percent identity carried over from the state after `p` — never reset
between records. -/
theorem parse_detailed_state_spec (xml : List Char) (m : Int) (pid bs : ℚ)
    (h : parse_blast_result_detailed xml = some (m, pid, bs))
    (hiter : containsSub iterMarker xml = true) :
    ((∀ l ∈ pySplitlines xml, isBitScoreEvent l = false) → pid = 0 ∧ bs = 0)
  ∧ (∀ p l s, pySplitlines xml = p ++ l :: s → isBitScoreEvent l = true →
      (∀ l2 ∈ s, isBitScoreEvent l2 = false) →
      ∃ stp v, foldSteps detailedStep detailedInit p = some stp
        ∧ parsePyFloat (fieldValue (strip l)) = some v
        ∧ bs = v
        ∧ pid = (match stp.align_len with
                 | some a => if a ≠ 0 ∧ 0 < a then (stp.identity : ℚ) / (a : ℚ) * 100
                             else stp.percent_identity
                 | none => stp.percent_identity)) := by
  rw [parse_blast_result_detailed, if_pos hiter] at h
  cases hf : foldSteps detailedStep detailedInit (pySplitlines xml) with
  | none => rw [hf] at h; cases h
  | some stf =>
    rw [hf] at h
    simp only [Option.some.injEq, Prod.mk.injEq] at h
    obtain ⟨-, hpid, hbs⟩ := h
    constructor
    · intro hall
      obtain ⟨hp, hb⟩ := foldSteps_preserve_fields (pySplitlines xml) detailedInit stf hall hf
      exact ⟨by rw [← hpid, hp]; rfl, by rw [← hbs, hb]; rfl⟩
    · intro p l s hsplit hev halls
      rw [hsplit] at hf
      cases hfp : foldSteps detailedStep detailedInit p with
      | none =>
        rw [foldSteps_append_none detailedStep p (l :: s) detailedInit hfp] at hf
        cases hf
      | some stp =>
        rw [foldSteps_append_some detailedStep p (l :: s) detailedInit stp hfp] at hf
        cases hd : detailedStep stp l with
        | none => simp [foldSteps, hd] at hf
        | some stl =>
          simp only [foldSteps, hd] at hf
          have hstep2 : applyBitD stp (strip l) = some stl := by
            rw [← detailedStep_bit_event stp l hev]
            exact hd
          obtain ⟨v, hv, hbv, hpv⟩ := applyBitD_fields stp stl (strip l) hstep2
          obtain ⟨hps, hbs2⟩ := foldSteps_preserve_fields s stl stf halls hf
          exact ⟨stp, v, rfl, hv, by rw [← hbs, hbs2, hbv], by rw [← hpid, hps, hpv]⟩

/-- Witness for C2 on the report whose lines are the iterations marker and
one bit-score line with value 5 and no align-len seen (percent identity
stays 0, bit score becomes 5). -/
theorem parse_detailed_state_spec_witness :
    ∃ stp v, foldSteps detailedStep detailedInit [iterMarker] = some stp
      ∧ parsePyFloat (fieldValue (strip ("<Hsp_bit-score>5</b>".toList))) = some v
      ∧ (5 : ℚ) = v
      ∧ (0 : ℚ) = (match stp.align_len with
                   | some a => if a ≠ 0 ∧ 0 < a then (stp.identity : ℚ) / (a : ℚ) * 100
                               else stp.percent_identity
                   | none => stp.percent_identity) :=
  (parse_detailed_state_spec
      (iterMarker ++ '\n' :: "<Hsp_bit-score>5</b>".toList) (-1) 0 5
      (by decide) (by decide)).2
    [iterMarker] ("<Hsp_bit-score>5</b>".toList) [] (by decide) (by decide)
    (by simp)
